import Mathlib

set_option maxRecDepth 100000

/-!
# Verification of the panda hardware-test client and pipeline

Shallow embedding of the table-upload encoder, response parsing, capture
stream reassembly, flow-controlled injection and the concurrent checker
pipeline from `hardware-tests/panda.py`, `common.py`, `seq.py` and
`pgen.py`.  Bytes and characters are modelled as `Nat` codes; numpy
`uint32` arrays as `List Nat` with every element below `2 ^ 32`.
-/

/-! ## Base64 (model of Python's `base64.b64encode` / decoding) -/

/-- The base64 alphabet as ASCII codes: value `n < 64` to character code. -/
def sextetToCode (n : Nat) : Nat :=
  if n < 26 then 65 + n
  else if n < 52 then 97 + (n - 26)
  else if n < 62 then 48 + (n - 52)
  else if n = 62 then 43
  else 47

/-- Inverse of the base64 alphabet: character code to value. -/
def codeToSextet (c : Nat) : Nat :=
  if 65 ≤ c ∧ c ≤ 90 then c - 65
  else if 97 ≤ c ∧ c ≤ 122 then 26 + (c - 97)
  else if 48 ≤ c ∧ c ≤ 57 then 52 + (c - 48)
  else if c = 43 then 62
  else 63

/-- Base64-encode a byte list (values `< 256`) into ASCII codes, with
`=` (code 61) padding, as `b64encode` does. -/
def b64EncodeBytes : List Nat → List Nat
  | [] => []
  | [b1] => [sextetToCode (b1 / 4), sextetToCode (b1 % 4 * 16), 61, 61]
  | [b1, b2] => [sextetToCode (b1 / 4), sextetToCode (b1 % 4 * 16 + b2 / 16),
                 sextetToCode (b2 % 16 * 4), 61]
  | b1 :: b2 :: b3 :: rest =>
      sextetToCode (b1 / 4) :: sextetToCode (b1 % 4 * 16 + b2 / 16)
        :: sextetToCode (b2 % 16 * 4 + b3 / 64) :: sextetToCode (b3 % 64)
        :: b64EncodeBytes rest

/-- Base64-decode ASCII codes back to bytes, honouring `=` padding. -/
def b64DecodeBytes : List Nat → List Nat
  | c1 :: c2 :: c3 :: c4 :: rest =>
      if c3 = 61 then [codeToSextet c1 * 4 + codeToSextet c2 / 16]
      else if c4 = 61 then
        [codeToSextet c1 * 4 + codeToSextet c2 / 16,
         codeToSextet c2 % 16 * 16 + codeToSextet c3 / 4]
      else (codeToSextet c1 * 4 + codeToSextet c2 / 16)
             :: (codeToSextet c2 % 16 * 16 + codeToSextet c3 / 4)
             :: (codeToSextet c3 % 4 * 64 + codeToSextet c4) :: b64DecodeBytes rest
  | _ => []

theorem codeToSextet_sextetToCode_fin :
    ∀ n : Fin 64, codeToSextet (sextetToCode n.val) = n.val := by decide

theorem codeToSextet_sextetToCode {n : Nat} (h : n < 64) :
    codeToSextet (sextetToCode n) = n :=
  codeToSextet_sextetToCode_fin ⟨n, h⟩

theorem sextetToCode_ne_pad_fin : ∀ n : Fin 64, sextetToCode n.val ≠ 61 := by decide

theorem sextetToCode_ne_pad {n : Nat} (h : n < 64) : sextetToCode n ≠ 61 :=
  sextetToCode_ne_pad_fin ⟨n, h⟩

/-- Decoding inverts encoding on genuine byte lists. -/
theorem b64_decode_encode :
    ∀ bs : List Nat, (∀ b ∈ bs, b < 256) → b64DecodeBytes (b64EncodeBytes bs) = bs
  | [], _ => rfl
  | [b1], h => by
      have hb1 : b1 < 256 := h b1 (by simp)
      have h1 : b1 / 4 < 64 := by omega
      have h2 : b1 % 4 * 16 < 64 := by omega
      simp only [b64EncodeBytes, b64DecodeBytes, reduceIte,
        codeToSextet_sextetToCode h1, codeToSextet_sextetToCode h2,
        List.cons.injEq, and_true]
      omega
  | [b1, b2], h => by
      have hb1 : b1 < 256 := h b1 (by simp)
      have hb2 : b2 < 256 := h b2 (by simp)
      have h1 : b1 / 4 < 64 := by omega
      have h2 : b1 % 4 * 16 + b2 / 16 < 64 := by omega
      have h3 : b2 % 16 * 4 < 64 := by omega
      simp only [b64EncodeBytes, b64DecodeBytes, if_neg (sextetToCode_ne_pad h3),
        reduceIte, codeToSextet_sextetToCode h1, codeToSextet_sextetToCode h2,
        codeToSextet_sextetToCode h3, List.cons.injEq, and_true]
      omega
  | b1 :: b2 :: b3 :: rest, h => by
      have hb1 : b1 < 256 := h b1 (by simp)
      have hb2 : b2 < 256 := h b2 (by simp)
      have hb3 : b3 < 256 := h b3 (by simp)
      have h1 : b1 / 4 < 64 := by omega
      have h2 : b1 % 4 * 16 + b2 / 16 < 64 := by omega
      have h3 : b2 % 16 * 4 + b3 / 64 < 64 := by omega
      have h4 : b3 % 64 < 64 := by omega
      have ih := b64_decode_encode rest (fun b hb => h b (by simp [hb]))
      cases rest with
      | nil =>
          simp only [b64EncodeBytes, b64DecodeBytes, if_neg (sextetToCode_ne_pad h3),
            if_neg (sextetToCode_ne_pad h4), codeToSextet_sextetToCode h1,
            codeToSextet_sextetToCode h2, codeToSextet_sextetToCode h3,
            codeToSextet_sextetToCode h4, List.cons.injEq, and_true]
          omega
      | cons b4 rest' =>
          simp only [b64EncodeBytes] at ih ⊢
          simp only [b64DecodeBytes, if_neg (sextetToCode_ne_pad h3),
            if_neg (sextetToCode_ne_pad h4), codeToSextet_sextetToCode h1,
            codeToSextet_sextetToCode h2, codeToSextet_sextetToCode h3,
            codeToSextet_sextetToCode h4, List.cons.injEq]
          exact ⟨by omega, by omega, by omega, ih⟩

/-! ## 32-bit words as raw bytes (numpy `uint32` little-endian memory) -/

/-- The four little-endian bytes of a 32-bit word. -/
def wordToBytes (w : Nat) : List Nat :=
  [w % 256, w / 256 % 256, w / 65536 % 256, w / 16777216 % 256]

/-- Raw bytes of a `uint32` array, as `b64encode` sees them. -/
def wordsToBytes : List Nat → List Nat
  | [] => []
  | w :: ws => wordToBytes w ++ wordsToBytes ws

/-- Reinterpret a byte stream as 32-bit little-endian words. -/
def bytesToWords : List Nat → List Nat
  | b0 :: b1 :: b2 :: b3 :: rest =>
      (b0 + 256 * b1 + 65536 * b2 + 16777216 * b3) :: bytesToWords rest
  | _ => []

theorem wordsToBytes_append (xs ys : List Nat) :
    wordsToBytes (xs ++ ys) = wordsToBytes xs ++ wordsToBytes ys := by
  induction xs with
  | nil => rfl
  | cons w ws ih => simp [wordsToBytes, ih]

theorem wordsToBytes_lt (ws : List Nat) : ∀ b ∈ wordsToBytes ws, b < 256 := by
  induction ws with
  | nil => simp [wordsToBytes]
  | cons w ws ih =>
      intro b hb
      simp only [wordsToBytes] at hb
      rcases List.mem_append.mp hb with h | h
      · simp only [wordToBytes, List.mem_cons, List.not_mem_nil, or_false] at h
        rcases h with h | h | h | h <;> omega
      · exact ih b h

theorem wordsToBytes_length : ∀ ws : List Nat, (wordsToBytes ws).length = 4 * ws.length
  | [] => rfl
  | w :: ws => by simp [wordsToBytes, wordToBytes, wordsToBytes_length ws]; omega

/-- Reinterpreting the raw bytes of a word array recovers it. -/
theorem bytesToWords_wordsToBytes :
    ∀ ws : List Nat, (∀ w ∈ ws, w < 4294967296) → bytesToWords (wordsToBytes ws) = ws
  | [], _ => rfl
  | w :: ws, h => by
      have hw : w < 4294967296 := h w (by simp)
      have ih := bytesToWords_wordsToBytes ws (fun x hx => h x (by simp [hx]))
      simp only [wordsToBytes, wordToBytes, List.cons_append, List.nil_append,
        bytesToWords, List.cons.injEq]
      exact ⟨by omega, ih⟩

/-! ## Chunking (the `range(0, len(content), chunk_size)` loop) -/

/-- Split a list into consecutive chunks of `k` elements (last one may be
shorter), using a structural fuel so that the function reduces in the
kernel; `chunksOf` instantiates the fuel with the list's length. -/
def chunksOfF (k : Nat) : Nat → List α → List (List α)
  | _, [] => []
  | 0, _ :: _ => []
  | fuel + 1, x :: xs => (x :: xs).take k :: chunksOfF k fuel ((x :: xs).drop k)

def chunksOf (k : Nat) (xs : List α) : List (List α) := chunksOfF k xs.length xs

theorem chunksOfF_join (k : Nat) (hk : 0 < k) :
    ∀ (fuel : Nat) (xs : List α), xs.length ≤ fuel →
      (chunksOfF k fuel xs).flatten = xs := by
  intro fuel
  induction fuel with
  | zero =>
      intro xs hlen
      cases xs with
      | nil => rfl
      | cons x xs => simp at hlen
  | succ n ih =>
      intro xs hlen
      cases xs with
      | nil => rfl
      | cons x xs =>
          have hdrop : ((x :: xs).drop k).length ≤ n := by
            simp only [List.length_drop, List.length_cons] at *
            omega
          simp only [chunksOfF, List.flatten_cons, ih _ hdrop, List.take_append_drop]

theorem chunksOf_join (k : Nat) (hk : 0 < k) (xs : List α) :
    (chunksOf k xs).flatten = xs :=
  chunksOfF_join k hk xs.length xs le_rfl

theorem chunksOfF_ne_nil (k : Nat) (hk : 0 < k) :
    ∀ (fuel : Nat) (xs : List α), ∀ c ∈ chunksOfF k fuel xs, c ≠ [] := by
  intro fuel
  induction fuel with
  | zero =>
      intro xs c hc
      cases xs <;> simp [chunksOfF] at hc
  | succ n ih =>
      intro xs c hc
      cases xs with
      | nil => simp [chunksOfF] at hc
      | cons x xs =>
          simp only [chunksOfF, List.mem_cons] at hc
          rcases hc with rfl | hc
          · cases k with
            | zero => omega
            | succ m => simp [List.take]
          · exact ih _ c hc

theorem chunksOf_mem_lt (k : Nat) :
    ∀ (fuel : Nat) (xs : List Nat), (∀ w ∈ xs, w < 4294967296) →
      ∀ c ∈ chunksOfF k fuel xs, ∀ w ∈ c, w < 4294967296 := by
  intro fuel
  induction fuel with
  | zero =>
      intro xs hxs c hc
      cases xs <;> simp [chunksOfF] at hc
  | succ n ih =>
      intro xs hxs c hc
      cases xs with
      | nil => simp [chunksOfF] at hc
      | cons x xs =>
          simp only [chunksOfF, List.mem_cons] at hc
          rcases hc with rfl | hc
          · exact fun w hw => hxs w (List.mem_of_mem_take hw)
          · exact ih _ (fun w hw => hxs w (List.mem_of_mem_drop hw)) c hc

theorem chunksOfF_mem_length (k : Nat) :
    ∀ (fuel : Nat) (xs : List α), ∀ c ∈ chunksOfF k fuel xs, c.length ≤ k := by
  intro fuel
  induction fuel with
  | zero =>
      intro xs c hc
      cases xs <;> simp [chunksOfF] at hc
  | succ n ih =>
      intro xs c hc
      cases xs with
      | nil => simp [chunksOfF] at hc
      | cons x xs =>
          simp only [chunksOfF, List.mem_cons] at hc
          rcases hc with rfl | hc
          · simp [List.length_take]
          · exact ih _ c hc

/-! ## Table upload framing (`prepare_table_command`) -/

/-- Open-line suffix chosen by `PandaClient.prepare_table_command`:
`'<'`, then `'<<|'` when `streaming and last`, else `'<<'` when `streaming`. -/
def tableSuffix (streaming llast : Bool) : List Nat :=
  if streaming && llast then [60, 60, 124]
  else if streaming then [60, 60]
  else [60]

/-- `PandaClient.prepare_table_command` (panda.py): one open line
`{name}{suffix}B`, the content in chunks of 191 array elements base64
encoded one chunk per line, then one empty line. -/
def prepare_table_command (name content : List Nat) (streaming llast : Bool) :
    List (List Nat) :=
  (name ++ tableSuffix streaming llast ++ [66]) ::
    (((chunksOf 191 content).map fun c => b64EncodeBytes (wordsToBytes c)) ++ [[]])

/-- Open-line suffix of the legacy `Client.prepare_table_command`
(common.py): `'<'` plus `'|'` when `more`. -/
def commonSuffix (more : Bool) : List Nat :=
  60 :: (if more then [124] else []) 

/-- `Client.prepare_table_command` (common.py). -/
def common_prepare_table_command (name content : List Nat) (more : Bool) :
    List (List Nat) :=
  (name ++ commonSuffix more ++ [66]) ::
    (((chunksOf 191 content).map fun c => b64EncodeBytes (wordsToBytes c)) ++ [[]])

theorem flatten_map_wordsToBytes :
    ∀ ls : List (List Nat), (ls.map wordsToBytes).flatten = wordsToBytes ls.flatten
  | [] => rfl
  | c :: ls => by
      simp [wordsToBytes_append, flatten_map_wordsToBytes ls]

/-- The data lines of a table command, decoded in order and concatenated,
are exactly the raw bytes of the content. -/
theorem dataLines_decode (content : List Nat) :
    (((chunksOf 191 content).map fun c => b64EncodeBytes (wordsToBytes c)).map
        b64DecodeBytes).flatten = wordsToBytes content := by
  have hmap : ((chunksOf 191 content).map fun c => b64EncodeBytes (wordsToBytes c)).map
      b64DecodeBytes = (chunksOf 191 content).map wordsToBytes := by
    rw [List.map_map]
    apply List.map_congr_left
    intro c hc
    exact b64_decode_encode (wordsToBytes c) (wordsToBytes_lt c)
  rw [hmap, flatten_map_wordsToBytes, chunksOf_join 191 (by norm_num)]

theorem dropLast_append_singleton (l : List α) (a : α) : (l ++ [a]).dropLast = l := by
  simp

theorem b64EncodeBytes_ne_nil : ∀ bs : List Nat, bs ≠ [] → b64EncodeBytes bs ≠ []
  | [], h => absurd rfl h
  | [_], _ => by simp [b64EncodeBytes]
  | [_, _], _ => by simp [b64EncodeBytes]
  | _ :: _ :: _ :: _, _ => by simp [b64EncodeBytes]

theorem wordsToBytes_ne_nil : ∀ ws : List Nat, ws ≠ [] → wordsToBytes ws ≠ []
  | [], h => absurd rfl h
  | _ :: _, _ => by simp [wordsToBytes, wordToBytes]

/-- **C1**: for every input sequence of unsigned 32-bit words (including
the empty sequence), base64-decoding in order the data lines emitted by
`prepare_table_command`, concatenating the decoded bytes, and
reinterpreting them as 32-bit words reproduces the original content
bit-for-bit. -/
theorem prepare_table_command_roundtrip (name content : List Nat)
    (streaming llast : Bool) (h : ∀ w ∈ content, w < 2 ^ 32) :
    bytesToWords
      ((((prepare_table_command name content streaming llast).drop 1).dropLast).map
        b64DecodeBytes).flatten = content := by
  have hdl : ((prepare_table_command name content streaming llast).drop 1).dropLast
      = (chunksOf 191 content).map fun c => b64EncodeBytes (wordsToBytes c) := by
    simp only [prepare_table_command, List.drop_succ_cons, List.drop_zero]
    exact dropLast_append_singleton _ _
  rw [hdl, dataLines_decode]
  exact bytesToWords_wordsToBytes content (by simpa using h)

/-- Witness for C1 at a concrete two-word content. -/
theorem prepare_table_command_roundtrip_witness :
    (∀ w ∈ [5, 4294967295], w < 2 ^ 32) ∧
    bytesToWords
      ((((prepare_table_command [84] [5, 4294967295] false false).drop 1).dropLast).map
        b64DecodeBytes).flatten = [5, 4294967295] :=
  ⟨by decide, prepare_table_command_roundtrip [84] [5, 4294967295] false false (by decide)⟩

/-- **C2 counterexample**: with 192 words of content a single data line
encodes 764 raw bytes of the content, not at most 191. -/
theorem prepare_table_line_191_counterexample :
    ¬ ∀ line ∈ ((prepare_table_command [] (List.replicate 192 0) false false).drop 1).dropLast,
        (b64DecodeBytes line).length ≤ 191 := by
  intro hall
  have hdl : ((prepare_table_command [] (List.replicate 192 0) false false).drop 1).dropLast
      = (chunksOf 191 (List.replicate 192 0)).map fun c => b64EncodeBytes (wordsToBytes c) := by
    simp only [prepare_table_command, List.drop_succ_cons, List.drop_zero]
    exact dropLast_append_singleton _ _
  have hch : chunksOf 191 (List.replicate 192 (0 : Nat)) = [List.replicate 191 0, [0]] := by
    decide
  have hmem : b64EncodeBytes (wordsToBytes (List.replicate 191 0))
      ∈ ((prepare_table_command [] (List.replicate 192 0) false false).drop 1).dropLast := by
    rw [hdl, hch]
    simp
  have hlen := hall _ hmem
  rw [b64_decode_encode _ (wordsToBytes_lt _), wordsToBytes_length,
    List.length_replicate] at hlen
  omega

/-- **C2 (amended)**: each base64 data line produced by
`prepare_table_command` encodes at most 191 array elements of the content,
i.e. at most 764 raw bytes (the content elements are 4-byte words). -/
theorem prepare_table_command_line_bytes (name content : List Nat)
    (streaming llast : Bool) :
    ∀ line ∈ ((prepare_table_command name content streaming llast).drop 1).dropLast,
      (b64DecodeBytes line).length ≤ 764 := by
  intro line hline
  have hdl : ((prepare_table_command name content streaming llast).drop 1).dropLast
      = (chunksOf 191 content).map fun c => b64EncodeBytes (wordsToBytes c) := by
    simp only [prepare_table_command, List.drop_succ_cons, List.drop_zero]
    exact dropLast_append_singleton _ _
  rw [hdl] at hline
  rcases List.mem_map.mp hline with ⟨c, hc, rfl⟩
  rw [b64_decode_encode _ (wordsToBytes_lt _), wordsToBytes_length]
  have := chunksOfF_mem_length 191 content.length content c hc
  omega

/-- Witness for C2 (amended) at a concrete content and data line. -/
theorem prepare_table_command_line_bytes_witness :
    (b64DecodeBytes (b64EncodeBytes (wordsToBytes [7]))).length ≤ 764 :=
  prepare_table_command_line_bytes [84] [7] false false _ (by decide)

/-- **C3 counterexample**: for a streaming (non-final) upload the legacy
`Client.prepare_table_command` in common.py emits the open line `T<|B`,
whose suffix `<|` is none of `<`, `<<`, `<<|`. -/
theorem common_table_suffix_counterexample :
    (common_prepare_table_command [84] [] true).headI = [84, 60, 124, 66] ∧
    [84, 60, 124, 66] ≠ [84] ++ [60] ++ [66] ∧
    [84, 60, 124, 66] ≠ [84] ++ [60, 60] ++ [66] ∧
    [84, 60, 124, 66] ≠ [84] ++ [60, 60, 124] ++ [66] := by decide

/-- **C3 (amended)**: both encoders emit exactly one open line
`{name}{suffix}B` followed by the base64 data lines and exactly one
terminating blank line, the blank line being the last command;
`PandaClient.prepare_table_command` uses suffix `<` for a single (replace)
upload, `<<` for a streaming non-final block and `<<|` for the streaming
final block, while the legacy `Client.prepare_table_command` of common.py
uses `<` when `more=False` and `<|` when `more=True`. -/
theorem table_upload_framing (name content : List Nat)
    (streaming llast more : Bool) :
    (prepare_table_command name content streaming llast
      = (name ++ (if streaming && llast then [60, 60, 124]
                  else if streaming then [60, 60] else [60]) ++ [66]) ::
          (((chunksOf 191 content).map fun c => b64EncodeBytes (wordsToBytes c)) ++ [[]])) ∧
    (common_prepare_table_command name content more
      = (name ++ (if more then [60, 124] else [60]) ++ [66]) ::
          (((chunksOf 191 content).map fun c => b64EncodeBytes (wordsToBytes c)) ++ [[]])) ∧
    (∀ line ∈ (chunksOf 191 content).map fun c => b64EncodeBytes (wordsToBytes c),
        line ≠ []) ∧
    (prepare_table_command name content streaming llast).count [] = 1 ∧
    (common_prepare_table_command name content more).count [] = 1 ∧
    (prepare_table_command name content streaming llast).getLast? = some [] ∧
    (common_prepare_table_command name content more).getLast? = some [] := by
  have hne : ∀ line ∈ (chunksOf 191 content).map fun c => b64EncodeBytes (wordsToBytes c),
      line ≠ [] := by
    intro line hline
    rcases List.mem_map.mp hline with ⟨c, hc, rfl⟩
    exact b64EncodeBytes_ne_nil _
      (wordsToBytes_ne_nil c (chunksOfF_ne_nil 191 (by norm_num) content.length content c hc))
  have hopen : ∀ s : List Nat, (name ++ (s ++ [66]) : List Nat) ≠ [] := by
    intro s hcontra
    have := congrArg List.length hcontra
    simp at this
  have hcount : ∀ dls : List (List Nat), (∀ l ∈ dls, l ≠ ([] : List Nat)) →
      List.count ([] : List Nat) dls = 0 := by
    intro dls hdls
    exact List.count_eq_zero.mpr fun hmem => hdls [] hmem rfl
  refine ⟨?_, ?_, hne, ?_, ?_, ?_, ?_⟩
  · cases streaming <;> cases llast <;> simp [prepare_table_command, tableSuffix]
  · cases more <;> simp [common_prepare_table_command, commonSuffix]
  · simp only [prepare_table_command, List.append_assoc]
    rw [List.count_cons_of_ne (fun hcontra => hopen _ hcontra.symm),
      List.count_append, hcount _ hne]
    simp
  · simp only [common_prepare_table_command, commonSuffix, List.append_assoc]
    rw [List.count_cons_of_ne (fun hcontra => hopen _ hcontra.symm),
      List.count_append, hcount _ hne]
    simp
  · show ((_ :: (_ ++ [[]])) : List (List Nat)).getLast? = some []
    rw [← List.cons_append]
    exact List.getLast?_concat _
  · show ((_ :: (_ ++ [[]])) : List (List Nat)).getLast? = some []
    rw [← List.cons_append]
    exact List.getLast?_concat _

/-- Witness for C3 (amended): concretely, a streaming-final command
contains exactly one blank line. -/
theorem table_upload_framing_witness :
    (prepare_table_command [84] [7] true true).count [] = 1 :=
  (table_upload_framing [84] [7] true true false).2.2.2.1

/-! ## Response classification (`Item.get` in panda.py) -/

/-- ASCII whitespace, as stripped/split by Python `bytes` methods. -/
def isSpaceB (c : Nat) : Bool :=
  c == 32 || c == 9 || c == 10 || c == 13 || c == 11 || c == 12

/-- ASCII decimal digit. -/
def isDigitB (c : Nat) : Bool := Nat.ble 48 c && Nat.ble c 57

/-- Python `bytes.strip()`: drop ASCII whitespace from both ends. -/
def stripB (l : List Nat) : List Nat :=
  ((l.dropWhile isSpaceB).reverse.dropWhile isSpaceB).reverse

/-- Python `bytes.split()` with no separator: split on whitespace runs,
no empty tokens.  Structural fuel, instantiated with the length. -/
def splitWSF : Nat → List Nat → List (List Nat)
  | _, [] => []
  | 0, _ :: _ => []
  | fuel + 1, c :: rest =>
      if isSpaceB c then splitWSF fuel rest
      else ((c :: rest).takeWhile fun x => !isSpaceB x)
             :: splitWSF fuel ((c :: rest).dropWhile fun x => !isSpaceB x)

def splitWS (l : List Nat) : List (List Nat) := splitWSF l.length l

theorem length_dropWhileLe (p : α → Bool) (l : List α) :
    (l.dropWhile p).length ≤ l.length := by
  induction l with
  | nil => simp
  | cons c rest ih =>
      rw [List.dropWhile_cons]
      split
      · simp only [List.length_cons]
        omega
      · simp

theorem splitWSF_fuel :
    ∀ (fuel fuel' : Nat) (l : List Nat), l.length ≤ fuel → l.length ≤ fuel' →
      splitWSF fuel l = splitWSF fuel' l := by
  intro fuel
  induction fuel with
  | zero =>
      intro fuel' l h h'
      cases l with
      | nil => cases fuel' <;> rfl
      | cons c rest => simp at h
  | succ n ih =>
      intro fuel' l h h'
      cases l with
      | nil => cases fuel' <;> rfl
      | cons c rest =>
          cases fuel' with
          | zero => simp at h'
          | succ m =>
              simp only [splitWSF]
              by_cases hc : isSpaceB c = true
              · rw [if_pos hc, if_pos hc]
                exact ih m rest (by simpa using h) (by simpa using h')
              · rw [if_neg hc, if_neg hc]
                have hdrop : ((c :: rest).dropWhile fun x => !isSpaceB x).length ≤ rest.length := by
                  rw [List.dropWhile_cons, if_pos (by simp [hc])]
                  exact length_dropWhileLe _ _
                simp only [List.length_cons] at h h'
                rw [ih m _ (by omega) (by omega)]

theorem splitWS_cons_space {c : Nat} (rest : List Nat) (h : isSpaceB c = true) :
    splitWS (c :: rest) = splitWS rest := by
  show splitWSF (c :: rest).length (c :: rest) = splitWSF rest.length rest
  simp only [List.length_cons, splitWSF, if_pos h]

theorem splitWS_cons_tok {c : Nat} (rest : List Nat) (h : isSpaceB c = false) :
    splitWS (c :: rest)
      = ((c :: rest).takeWhile fun x => !isSpaceB x)
          :: splitWS ((c :: rest).dropWhile fun x => !isSpaceB x) := by
  show splitWSF (c :: rest).length (c :: rest) = _
  simp only [List.length_cons, splitWSF, if_neg (by simp [h] : ¬ isSpaceB c = true)]
  congr 1
  apply splitWSF_fuel
  · have hdrop : ((c :: rest).dropWhile fun x => !isSpaceB x).length ≤ rest.length := by
      rw [List.dropWhile_cons, if_pos (by simp [h])]
      exact length_dropWhileLe _ _
    omega
  · exact le_rfl

theorem takeWhile_token (t : List Nat) (rest : List Nat)
    (ht : ∀ c ∈ t, isSpaceB c = false) :
    ((t ++ 10 :: rest).takeWhile fun x => !isSpaceB x) = t ∧
    ((t ++ 10 :: rest).dropWhile fun x => !isSpaceB x) = 10 :: rest := by
  induction t with
  | nil =>
      constructor
      · rw [List.nil_append, List.takeWhile_cons, if_neg (by simp [isSpaceB])]
      · rw [List.nil_append, List.dropWhile_cons, if_neg (by simp [isSpaceB])]
  | cons c t ih =>
      have hc : isSpaceB c = false := ht c (by simp)
      have iht := ih fun x hx => ht x (by simp [hx])
      constructor
      · rw [List.cons_append, List.takeWhile_cons, if_pos (by simp [hc]), iht.1]
      · rw [List.cons_append, List.dropWhile_cons, if_pos (by simp [hc]), iht.2]

/-- `split()` pulls off a leading whitespace-free token ending at a
newline. -/
theorem splitWS_token (t rest : List Nat) (htne : t ≠ [])
    (ht : ∀ c ∈ t, isSpaceB c = false) :
    splitWS (t ++ 10 :: rest) = t :: splitWS rest := by
  rcases List.exists_cons_of_ne_nil htne with ⟨c, t_tl, rfl⟩
  have hc : isSpaceB c = false := ht c (by simp)
  have htw := takeWhile_token (c :: t_tl) rest ht
  rw [List.cons_append, splitWS_cons_tok _ hc, ← List.cons_append, htw.1, htw.2]
  rw [splitWS_cons_space rest (by simp [isSpaceB])]

/-- Decimal rendering of a natural number (fuelled, `natToDec` wraps it). -/
def natToDecF : Nat → Nat → List Nat
  | 0, _ => []
  | fuel + 1, n => if n < 10 then [48 + n] else natToDecF fuel (n / 10) ++ [48 + n % 10]

def natToDec (n : Nat) : List Nat := natToDecF (n + 1) n

/-- Accumulate the value of a decimal digit string. -/
def decValF : List Nat → Nat → Nat
  | [], acc => acc
  | d :: ds, acc => decValF ds (acc * 10 + (d - 48))

/-- Modelled from the spec: Python's built-in `int()` applied to a
whitespace-free token (`int(i[1:])` in `Item.get`); an optional single
sign followed by one or more decimal digits (the CPython underscore
extension is not modelled). -/
def pyIntTok : List Nat → Option Int
  | [] => none
  | c :: ds =>
      if c = 45 then
        if (!ds.isEmpty && ds.all isDigitB) = true then some (-(decValF ds 0 : Int))
        else none
      else if c = 43 then
        if (!ds.isEmpty && ds.all isDigitB) = true then some ((decValF ds 0 : Int))
        else none
      else if ((c :: ds).all isDigitB) = true then some ((decValF (c :: ds) 0 : Int))
      else none

theorem decValF_append (l1 l2 : List Nat) :
    ∀ acc, decValF (l1 ++ l2) acc = decValF l2 (decValF l1 acc) := by
  induction l1 with
  | nil => intro acc; rfl
  | cons d ds ih => intro acc; exact ih (acc * 10 + (d - 48))

theorem natToDecF_val :
    ∀ (fuel n : Nat), n < fuel → decValF (natToDecF fuel n) 0 = n := by
  intro fuel
  induction fuel with
  | zero => intro n h; omega
  | succ f ih =>
      intro n h
      by_cases h10 : n < 10
      · simp only [natToDecF, if_pos h10, decValF]
        omega
      · have hdiv : n / 10 < f := by omega
        simp only [natToDecF, if_neg h10, decValF_append, decValF, ih (n / 10) hdiv]
        omega

theorem natToDec_val (n : Nat) : decValF (natToDec n) 0 = n :=
  natToDecF_val (n + 1) n (by omega)

theorem natToDecF_digits :
    ∀ (fuel n : Nat), ∀ d ∈ natToDecF fuel n, 48 ≤ d ∧ d ≤ 57 := by
  intro fuel
  induction fuel with
  | zero => intro n d hd; simp [natToDecF] at hd
  | succ f ih =>
      intro n d hd
      by_cases h10 : n < 10
      · simp only [natToDecF, if_pos h10, List.mem_singleton] at hd
        omega
      · simp only [natToDecF, if_neg h10, List.mem_append, List.mem_singleton] at hd
        rcases hd with hd | hd
        · exact ih (n / 10) d hd
        · omega

theorem natToDec_digits (n : Nat) : ∀ d ∈ natToDec n, 48 ≤ d ∧ d ≤ 57 :=
  natToDecF_digits (n + 1) n

theorem natToDec_ne_nil (n : Nat) : natToDec n ≠ [] := by
  unfold natToDec natToDecF
  by_cases h10 : n < 10
  · simp [if_pos h10]
  · simp only [if_neg h10]
    exact fun hcontra => by simpa using congrArg List.length hcontra

theorem isDigitB_of_range {d : Nat} (h1 : 48 ≤ d) (h2 : d ≤ 57) : isDigitB d = true := by
  simp only [isDigitB, Bool.and_eq_true, Nat.ble_eq]
  omega

/-- `int()` inverts decimal rendering. -/
theorem pyIntTok_natToDec (n : Nat) : pyIntTok (natToDec n) = some (n : Int) := by
  rcases List.exists_cons_of_ne_nil (natToDec_ne_nil n) with ⟨c, ds, hds⟩
  have hdig := natToDec_digits n
  have hc := hdig c (by rw [hds]; simp)
  have hall : ((c :: ds).all isDigitB) = true := by
    rw [List.all_eq_true]
    intro d hd
    have := hdig d (by rw [hds]; exact hd)
    exact isDigitB_of_range this.1 this.2
  have hval : decValF (c :: ds) 0 = n := by rw [← hds]; exact natToDec_val n
  rw [hds, pyIntTok, if_neg (by omega), if_neg (by omega), if_pos hall, hval]

/-- Consume the tail of a digit run: digits, with single underscores
allowed between digits (fuelled on the list length). -/
def digitTailF : Nat → List Nat → List Nat
  | 0, l => l
  | fuel + 1, l =>
      match l with
      | [] => []
      | c :: rest =>
          if isDigitB c then digitTailF fuel rest
          else if c = 95 then
            match rest with
            | d :: rest2 => if isDigitB d then digitTailF fuel rest2 else l
            | [] => l
          else l

/-- Python `digitpart`: `digit (["_"] digit)*`; returns the rest of the
input after the digit run, or `none` if there is no leading digit. -/
def digitPartB : List Nat → Option (List Nat)
  | [] => none
  | c :: rest => if isDigitB c then some (digitTailF rest.length rest) else none

/-- Python float `number`: `digitpart ["." [digitpart]] | "." digitpart`. -/
def parseNumberB (l : List Nat) : Option (List Nat) :=
  match l with
  | 46 :: rest => digitPartB rest
  | _ =>
      match digitPartB l with
      | none => none
      | some r =>
          match r with
          | 46 :: r2 =>
              match digitPartB r2 with
              | some r3 => some r3
              | none => some r2
          | _ => some r

/-- Python float exponent: optional `(e|E) [sign] digitpart`. -/
def parseExpB (l : List Nat) : Option (List Nat) :=
  match l with
  | [] => some []
  | c :: rest =>
      if c = 101 ∨ c = 69 then
        match rest with
        | s :: rest2 => if s = 43 ∨ s = 45 then digitPartB rest2 else digitPartB rest
        | [] => none
      else some l

/-- ASCII upper-case to lower-case. -/
def lowerB (c : Nat) : Nat := if 65 ≤ c ∧ c ≤ 90 then c + 32 else c

/-- Case-insensitive `inf` / `infinity` / `nan`. -/
def isInfNanB (l : List Nat) : Bool :=
  l.map lowerB == [105, 110, 102]
    || l.map lowerB == [105, 110, 102, 105, 110, 105, 116, 121]
    || l.map lowerB == [110, 97, 110]

/-- Modelled from the spec: Python's built-in `float()` recognizer
(`float(val)` in `Item.get`) on an already-stripped byte string:
`[sign] (number [exponent] | inf | infinity | nan)`. -/
def pyFloatAccepts (l : List Nat) : Bool :=
  let l1 := match l with
            | c :: rest => if c = 43 ∨ c = 45 then rest else l
            | [] => l
  if isInfNanB l1 then true
  else
    match parseNumberB l1 with
    | some r =>
        match parseExpB r with
        | some [] => true
        | _ => false
    | none => false

/-- Python `bytes.isdigit()`: nonempty, all ASCII digits. -/
def isdigitB (l : List Nat) : Bool := !l.isEmpty && l.all isDigitB

/-- A value returned by `Item.get`: an enumerated integer list, an
integer, a float (kept as its raw text), or a raw string. -/
inductive GetValue where
  | intList : List Int → GetValue
  | intVal : Nat → GetValue
  | floatVal : List Nat → GetValue
  | strVal : List Nat → GetValue
deriving DecidableEq

/-- Outcome of `Item.get`: a value, or a raised `ValueError` carrying the
offending response. -/
inductive GetResult where
  | ok : GetValue → GetResult
  | err : List Nat → GetResult
deriving DecidableEq

/-- `startswith` on byte strings. -/
def listStartsWith (p l : List Nat) : Bool := p.isPrefixOf l

/-- `b'=' in result`. -/
def hasEq (l : List Nat) : Bool := l.any fun c => c == 61

/-- `result.split(b'=', 1)[1]`: everything after the first `=`. -/
def afterEq : List Nat → List Nat
  | [] => []
  | c :: rest => if c = 61 then rest else afterEq rest

/-- Collect a list of optional values, failing if any is `none`
(the `int()` calls of the list branch raising). -/
def optionAll : List (Option α) → Option (List α)
  | [] => some []
  | none :: _ => none
  | some x :: rest => (optionAll rest).map fun xs => x :: xs

/-- The scalar-value conversion in `Item.get`: `int` if `isdigit`, else
`float` if it parses, else the raw string. -/
def parseGetValue (val : List Nat) : GetValue :=
  if isdigitB val then GetValue.intVal (decValF val 0)
  else if pyFloatAccepts val then GetValue.floatVal val
  else GetValue.strVal val

/-- `Item.get` (panda.py): classification of a complete response. -/
def Item_get (result : List Nat) : GetResult :=
  if listStartsWith [69, 82, 82] result then GetResult.err result
  else if listStartsWith [33] result then
    match optionAll (((splitWS result).dropLast).map fun t => pyIntTok (t.drop 1)) with
    | some ns => GetResult.ok (GetValue.intList ns)
    | none => GetResult.err result
  else if hasEq result then GetResult.ok (parseGetValue (stripB (afterEq result)))
  else GetResult.err result

theorem optionAll_map_some {α β : Type} (f : α → β) (l : List α) :
    optionAll (l.map fun a => some (f a)) = some (l.map f) := by
  induction l with
  | nil => rfl
  | cons a l ih => simp [optionAll, ih]

theorem isSpaceB_digit {c : Nat} (h1 : 48 ≤ c) (h2 : c ≤ 57) : isSpaceB c = false := by
  simp only [isSpaceB, Bool.or_eq_false_iff, beq_eq_false_iff_ne, ne_eq]
  omega

theorem startsWith3_false {a b c x : Nat} (l : List Nat) (h : x ≠ a) :
    listStartsWith [a, b, c] (x :: l) = false := by
  have hbeq : (a == x) = false := beq_eq_false_iff_ne.mpr fun hcontra => h hcontra.symm
  simp [listStartsWith, List.isPrefixOf, hbeq]

theorem afterEq_append (nam tail : List Nat) (h : 61 ∉ nam) :
    afterEq (nam ++ 61 :: tail) = tail := by
  induction nam with
  | nil => simp [afterEq]
  | cons c nam ih =>
      have hc : c ≠ 61 := fun hcontra => h (by simp [hcontra])
      simp only [List.cons_append, afterEq, if_neg hc]
      exact ih fun hm => h (by simp [hm])

theorem hasEq_append (nam tail : List Nat) : hasEq (nam ++ 61 :: tail) = true := by
  simp only [hasEq, List.any_eq_true]
  exact ⟨61, by simp, by simp⟩

/-- `split()` of a rendered `!`-list response: one token per value line,
then the terminator `.`. -/
theorem splitWS_bang (ns : List Nat) :
    splitWS ((ns.map fun n => 33 :: (natToDec n ++ [10])).flatten ++ [46, 10])
      = (ns.map fun n => 33 :: natToDec n) ++ [[46]] := by
  induction ns with
  | nil => decide
  | cons n ns ih =>
      have harr : ((ns.map fun m => 33 :: (natToDec m ++ [10])).map id).flatten = 
          (ns.map fun m => 33 :: (natToDec m ++ [10])).flatten := by simp
      have hns2 : ∀ c ∈ 33 :: natToDec n, isSpaceB c = false := by
        intro c hc
        rcases List.mem_cons.mp hc with rfl | hc
        · rfl
        · have := natToDec_digits n c hc
          exact isSpaceB_digit this.1 this.2
      have hstep : ((n :: ns).map fun m => 33 :: (natToDec m ++ [10])).flatten ++ [46, 10]
          = (33 :: natToDec n) ++ 10 ::
              ((ns.map fun m => 33 :: (natToDec m ++ [10])).flatten ++ [46, 10]) := by
        simp [List.flatten_cons, List.cons_append, List.append_assoc]
      rw [hstep, splitWS_token _ _ (by simp) hns2, ih]
      simp

/-- **C4**: `Item.get` classifies a complete device response: an
`ERR`-prefixed response raises an error carrying the message; a
`!`-prefixed response yields the ordered list of integers of the lines
preceding the terminating `.`; otherwise the text after the first `=` is
parsed as an integer, then as a float, then falls back to a string
(`FOO=42` gives integer 42, `FOO=3.5` gives float `3.5`, `FOO=bar` gives
string `"bar"`). -/
theorem Item_get_classification :
    (∀ r : List Nat, listStartsWith [69, 82, 82] r = true →
      Item_get r = GetResult.err r) ∧
    (∀ ns : List Nat, ns ≠ [] →
      Item_get ((ns.map fun n => 33 :: (natToDec n ++ [10])).flatten ++ [46, 10])
        = GetResult.ok (GetValue.intList (ns.map Int.ofNat))) ∧
    (∀ nam tail : List Nat, 61 ∉ nam →
      listStartsWith [69, 82, 82] (nam ++ 61 :: tail) = false →
      listStartsWith [33] (nam ++ 61 :: tail) = false →
      Item_get (nam ++ 61 :: tail) = GetResult.ok (parseGetValue (stripB tail))) ∧
    (∀ v : List Nat, isdigitB v = true →
      parseGetValue v = GetValue.intVal (decValF v 0)) ∧
    (∀ v : List Nat, isdigitB v = false → pyFloatAccepts v = true →
      parseGetValue v = GetValue.floatVal v) ∧
    (∀ v : List Nat, isdigitB v = false → pyFloatAccepts v = false →
      parseGetValue v = GetValue.strVal v) ∧
    Item_get [70, 79, 79, 61, 52, 50, 10] = GetResult.ok (GetValue.intVal 42) ∧
    Item_get [70, 79, 79, 61, 51, 46, 53, 10]
      = GetResult.ok (GetValue.floatVal [51, 46, 53]) ∧
    Item_get [70, 79, 79, 61, 98, 97, 114, 10]
      = GetResult.ok (GetValue.strVal [98, 97, 114]) ∧
    Item_get [33, 49, 10, 33, 50, 10, 46, 10]
      = GetResult.ok (GetValue.intList [1, 2]) ∧
    Item_get [69, 82, 82, 32, 98, 97, 100, 10]
      = GetResult.err [69, 82, 82, 32, 98, 97, 100, 10] := by
  refine ⟨?_, ?_, ?_, ?_, ?_, ?_, by decide, by decide, by decide, by decide, by decide⟩
  · intro r hr
    simp [Item_get, hr]
  · intro ns hne
    rcases List.exists_cons_of_ne_nil hne with ⟨n, ns2, rfl⟩
    have hhead : ((n :: ns2).map fun m => 33 :: (natToDec m ++ [10])).flatten ++ [46, 10]
        = 33 :: ((natToDec n ++ [10]) ++
            ((ns2.map fun m => 33 :: (natToDec m ++ [10])).flatten ++ [46, 10])) := by
      simp [List.flatten_cons, List.cons_append, List.append_assoc]
    rw [Item_get, hhead, startsWith3_false _ (by omega), ← hhead, splitWS_bang]
    have hstart : listStartsWith [33] (33 :: ((natToDec n ++ [10]) ++
        ((ns2.map fun m => 33 :: (natToDec m ++ [10])).flatten ++ [46, 10]))) = true := by
      simp [listStartsWith, List.isPrefixOf]
    rw [hhead, if_neg (by simp), if_pos hstart]
    rw [dropLast_append_singleton]
    have hmap : ((n :: ns2).map fun m => 33 :: natToDec m).map (fun t => pyIntTok (t.drop 1))
        = (n :: ns2).map fun m => some (Int.ofNat m) := by
      rw [List.map_map]
      apply List.map_congr_left
      intro m hm
      simp only [Function.comp_apply, List.drop_succ_cons, List.drop_zero]
      exact pyIntTok_natToDec m
    rw [hmap, optionAll_map_some]
  · intro nam tail hnam herr hbang
    rw [Item_get, if_neg (by simp [herr]), if_neg (by simp [hbang]),
      if_pos (by simp [hasEq_append]), afterEq_append nam tail hnam]
  · intro v hv
    simp [parseGetValue, hv]
  · intro v hv hf
    simp [parseGetValue, hv, hf]
  · intro v hv hf
    simp [parseGetValue, hv, hf]

/-- Witness for C4: the list branch at the concrete response `!5\n.\n`. -/
theorem Item_get_classification_witness :
    ([5] : List Nat) ≠ [] ∧
    Item_get (([5].map fun n => 33 :: (natToDec n ++ [10])).flatten ++ [46, 10])
      = GetResult.ok (GetValue.intList ([5].map Int.ofNat)) :=
  ⟨by decide, Item_get_classification.2.1 [5] (by decide)⟩

/-! ## Write acknowledgment (`Item.put` in panda.py) -/

/-- A value written by `Item.put`: a scalar (textual) or a numpy table. -/
inductive PutVal where
  | scalar : List Nat → PutVal
  | table : List Nat → PutVal

/-- `Item.put` (panda.py): the command lines sent for the value and the
outcome on the device acknowledgment `ack`: a raised `ValueError`
carrying the acknowledgment unless it starts with `OK`. -/
def Item_put (path : List Nat) (v : PutVal) (ack : List Nat) :
    List (List Nat) × Except (List Nat) Unit :=
  (match v with
   | PutVal.scalar s => [path ++ 61 :: s]
   | PutVal.table c => prepare_table_command path c false false,
   if listStartsWith [79, 75] ack then Except.ok () else Except.error ack)

/-- **C5**: `put` raises an error iff the device acknowledgment does not
begin with `OK`; on an `OK`-prefixed acknowledgment it returns normally,
for both scalar and array (table) writes. -/
theorem Item_put_ok_iff (path : List Nat) (v : PutVal) (ack : List Nat) :
    ((Item_put path v ack).2 = Except.ok () ↔ listStartsWith [79, 75] ack = true) ∧
    ((Item_put path v ack).2 = Except.error ack ↔ listStartsWith [79, 75] ack = false) := by
  by_cases h : listStartsWith [79, 75] ack = true
  · constructor
    · simp [Item_put, h]
    · simp [Item_put, h]
  · constructor
    · simp [Item_put, h]
    · simp only [Bool.not_eq_true] at h
      simp [Item_put, h]

/-- Witness for C5: a table write acknowledged `OK\n` returns normally, a
scalar write acknowledged `ERR x\n` raises. -/
theorem Item_put_ok_iff_witness :
    (Item_put [80] (PutVal.table [5]) [79, 75, 10]).2 = Except.ok () ∧
    (Item_put [80] (PutVal.scalar [49]) [69, 82, 82, 10]).2
      = Except.error [69, 82, 82, 10] :=
  ⟨(Item_put_ok_iff [80] (PutVal.table [5]) [79, 75, 10]).1.mpr (by decide),
   (Item_put_ok_iff [80] (PutVal.scalar [49]) [69, 82, 82, 10]).2.mpr (by decide)⟩

/-! ## Flow-controlled injection (`handle_seq` in seq.py, `handle_pgen`
in pgen.py) -/

/-- Observable actions of the injector loop: a block upload, a
`QUEUED_LINES` poll returning a depth, a `time.sleep(0.1)`. -/
inductive InjEv where
  | send : Nat → InjEv
  | poll : Nat → InjEv
  | sleep100 : InjEv
deriving DecidableEq

/-- The seq.py backpressure loop
`while streaming and (QUEUED_LINES.get() >= thres): time.sleep(0.1)`:
`depths` is the sequence of depths the device would report; the result is
the event trace, or `none` if the depth never falls below the threshold
within `depths`. -/
def pollWaitGe (thres : Nat) : List Nat → Option (List InjEv)
  | [] => none
  | d :: ds =>
      if d ≥ thres then
        (pollWaitGe thres ds).map fun evs => InjEv.poll d :: InjEv.sleep100 :: evs
      else some [InjEv.poll d]

/-- The pgen.py variant
`while streaming and QUEUED_LINES.get() > 2 * lines_per_block: sleep(0.1)`. -/
def pollWaitGt (thres : Nat) : List Nat → Option (List InjEv)
  | [] => none
  | d :: ds =>
      if d > thres then
        (pollWaitGt thres ds).map fun evs => InjEv.poll d :: InjEv.sleep100 :: evs
      else some [InjEv.poll d]

/-- The `for i in range(args.nblocks)` loop of `handle_seq`: send block
`i`, then run the backpressure wait only when streaming
(`nblocks > 1`); `oracle i` gives the depths polled after block `i`. -/
def injectBlocksF (thres nblocks : Nat) (oracle : Nat → List Nat) :
    Nat → Nat → Option (List InjEv)
  | _, 0 => some []
  | i, rem + 1 =>
      (if 1 < nblocks then pollWaitGe thres (oracle i) else some []).bind fun w =>
        (injectBlocksF thres nblocks oracle (i + 1) rem).map fun t =>
          InjEv.send i :: (w ++ t)

def injectBlocks (thres nblocks : Nat) (oracle : Nat → List Nat) :
    Option (List InjEv) :=
  injectBlocksF thres nblocks oracle 0 nblocks

theorem pollWaitGe_spec (thres : Nat) :
    ∀ (ds : List Nat) (evs : List InjEv), pollWaitGe thres ds = some evs →
      ∃ k, k < ds.length ∧ (∀ j, j < k → thres ≤ ds.getD j 0) ∧ ds.getD k 0 < thres ∧
        evs = ((ds.take k).map fun d => [InjEv.poll d, InjEv.sleep100]).flatten
                ++ [InjEv.poll (ds.getD k 0)] := by
  intro ds
  induction ds with
  | nil => intro evs h; simp [pollWaitGe] at h
  | cons d ds ih =>
      intro evs h
      simp only [pollWaitGe] at h
      by_cases hd : d ≥ thres
      · rw [if_pos hd] at h
        obtain ⟨evs2, hevs2, hf⟩ := Option.map_eq_some'.mp h
        obtain ⟨k, hk, hbefore, hkd, rfl⟩ := ih evs2 hevs2
        refine ⟨k + 1, by simpa using hk, ?_, by simpa using hkd, ?_⟩
        · intro j hj
          cases j with
          | zero => simpa using hd
          | succ j2 => simpa using hbefore j2 (by omega)
        · rw [← hf]
          simp [List.flatten_cons]
      · rw [if_neg hd] at h
        refine ⟨0, by simp, by omega, by simpa using Nat.lt_of_not_le hd, ?_⟩
        simp only [List.take_zero, List.map_nil, List.flatten_nil, List.nil_append,
          List.getD_cons_zero]
        exact (Option.some.injEq _ _).mp h.symm ▸ rfl

theorem pollWaitGt_spec (thres : Nat) :
    ∀ (ds : List Nat) (evs : List InjEv), pollWaitGt thres ds = some evs →
      ∃ k, k < ds.length ∧ (∀ j, j < k → thres < ds.getD j 0) ∧ ds.getD k 0 ≤ thres ∧
        evs = ((ds.take k).map fun d => [InjEv.poll d, InjEv.sleep100]).flatten
                ++ [InjEv.poll (ds.getD k 0)] := by
  intro ds
  induction ds with
  | nil => intro evs h; simp [pollWaitGt] at h
  | cons d ds ih =>
      intro evs h
      simp only [pollWaitGt] at h
      by_cases hd : d > thres
      · rw [if_pos hd] at h
        obtain ⟨evs2, hevs2, hf⟩ := Option.map_eq_some'.mp h
        obtain ⟨k, hk, hbefore, hkd, rfl⟩ := ih evs2 hevs2
        refine ⟨k + 1, by simpa using hk, ?_, by simpa using hkd, ?_⟩
        · intro j hj
          cases j with
          | zero => simpa using hd
          | succ j2 => simpa using hbefore j2 (by omega)
        · rw [← hf]
          simp [List.flatten_cons]
      · rw [if_neg hd] at h
        refine ⟨0, by simp, by omega, by simpa using Nat.le_of_not_lt hd, ?_⟩
        simp only [List.take_zero, List.map_nil, List.flatten_nil, List.nil_append,
          List.getD_cons_zero]
        exact (Option.some.injEq _ _).mp h.symm ▸ rfl

theorem injectBlocksF_streaming (thres nblocks : Nat) (oracle : Nat → List Nat)
    (hn : 1 < nblocks) (ws : Nat → List InjEv)
    (hw : ∀ i, pollWaitGe thres (oracle i) = some (ws i)) :
    ∀ (rem i : Nat), injectBlocksF thres nblocks oracle i rem
      = some (((List.range rem).map fun j => InjEv.send (i + j) :: ws (i + j)).flatten) := by
  intro rem
  induction rem with
  | zero => intro i; simp [injectBlocksF]
  | succ r ih =>
      intro i
      simp only [injectBlocksF, if_pos hn, hw i, ih (i + 1)]
      simp only [Option.bind, Option.map, List.range_succ_eq_map, List.map_cons,
        List.flatten_cons, List.map_map, Option.some.injEq, Nat.add_zero]
      congr 1
      show ws i ++ _ = ws i ++ _
      congr 1
      refine congrArg List.flatten ?_
      apply List.map_congr_left
      intro j hj
      have hadd : i + 1 + j = i + Nat.succ j := by omega
      simp [Function.comp, hadd]

/-- **C6**: during a streaming (multi-block) injection, after sending
block `i` the injector repeatedly polls the queue-depth field with one
100 ms sleep between consecutive polls, and sends block `i+1` only after
a poll reports a depth at or below the configured multiple of the
per-block line count (`max_blocks_queued * lines_per_block` in seq.py,
strictly below; `2 * lines_per_block` in pgen.py, at or below); a
single-block (non-streaming) upload performs no backpressure poll at
all. -/
theorem streaming_backpressure (maxBlocksQueued linesPerBlock : Nat)
    (oracle : Nat → List Nat) :
    (injectBlocks (maxBlocksQueued * linesPerBlock) 1 oracle
      = some [InjEv.send 0]) ∧
    (∀ ds evs, pollWaitGe (maxBlocksQueued * linesPerBlock) ds = some evs →
      ∃ k, k < ds.length ∧
        (∀ j, j < k → maxBlocksQueued * linesPerBlock ≤ ds.getD j 0) ∧
        ds.getD k 0 ≤ maxBlocksQueued * linesPerBlock ∧
        ds.getD k 0 < maxBlocksQueued * linesPerBlock ∧
        evs = ((ds.take k).map fun d => [InjEv.poll d, InjEv.sleep100]).flatten
                ++ [InjEv.poll (ds.getD k 0)]) ∧
    (∀ ds evs, pollWaitGt (2 * linesPerBlock) ds = some evs →
      ∃ k, k < ds.length ∧
        (∀ j, j < k → 2 * linesPerBlock < ds.getD j 0) ∧
        ds.getD k 0 ≤ 2 * linesPerBlock ∧
        evs = ((ds.take k).map fun d => [InjEv.poll d, InjEv.sleep100]).flatten
                ++ [InjEv.poll (ds.getD k 0)]) ∧
    (∀ (nblocks : Nat) (ws : Nat → List InjEv), 1 < nblocks →
      (∀ i, pollWaitGe (maxBlocksQueued * linesPerBlock) (oracle i) = some (ws i)) →
      injectBlocks (maxBlocksQueued * linesPerBlock) nblocks oracle
        = some (((List.range nblocks).map fun j => InjEv.send j :: ws j).flatten)) := by
  refine ⟨by simp [injectBlocks, injectBlocksF], ?_, pollWaitGt_spec _, ?_⟩
  · intro ds evs h
    obtain ⟨k, hk, hb, hkd, heq⟩ := pollWaitGe_spec _ ds evs h
    exact ⟨k, hk, hb, Nat.le_of_lt hkd, hkd, heq⟩
  · intro nblocks ws hn hw
    rw [injectBlocks, injectBlocksF_streaming _ _ _ hn ws hw nblocks 0]
    simp

/-- Witness for C6: two streaming blocks with the device reporting depth
0 after each block. -/
theorem streaming_backpressure_witness :
    injectBlocks (1 * 1) 2 (fun _ => [0])
      = some [InjEv.send 0, InjEv.poll 0, InjEv.send 1, InjEv.poll 0] := by
  have h := (streaming_backpressure 1 1 (fun _ => [0])).2.2.2 2
    (fun _ => [InjEv.poll 0]) (by omega) (fun i => rfl)
  simpa using h

/-! ## Capture stream reassembly (`PandaClient.collect` in panda.py) -/

/-- Python truthiness of the `nbytes` argument (`if nbytes:`). -/
def nbytesTruthy : Option Nat → Bool
  | none => false
  | some n => decide (n ≠ 0)

/-- The receive loop of `collect`: `chunks` are the successive
`recv` results (an empty chunk stands for the peer closing), `acc` is
the carried buffer; yields are returned in order, with the residual
buffer yielded once at the end when nonempty. -/
def collectF (nbytes : Option Nat) : List (List Nat) → List Nat → List (List Nat)
  | [], acc => if acc ≠ [] then [acc] else []
  | chunk :: rest, acc =>
      if chunk = [] then (if acc ≠ [] then [acc] else [])
      else
        match nbytes with
        | some n =>
            if n ≠ 0 then
              if n ≤ (acc ++ chunk).length then
                (acc ++ chunk).take n :: collectF (some n) rest ((acc ++ chunk).drop n)
              else collectF (some n) rest (acc ++ chunk)
            else
              if (acc ++ chunk).length % 4 = 0 then
                (acc ++ chunk) :: collectF (some n) rest []
              else collectF (some n) rest (acc ++ chunk)
        | none =>
            if (acc ++ chunk).length % 4 = 0 then
              (acc ++ chunk) :: collectF none rest []
            else collectF none rest (acc ++ chunk)

/-- `PandaClient.collect`: reassemble the byte stream into yielded
buffers. -/
def collect (nbytes : Option Nat) (chunks : List (List Nat)) : List (List Nat) :=
  collectF nbytes chunks []

theorem collectF_join (nbytes : Option Nat) :
    ∀ (chunks : List (List Nat)) (acc : List Nat), (∀ c ∈ chunks, c ≠ []) →
      (collectF nbytes chunks acc).flatten = acc ++ chunks.flatten := by
  intro chunks
  induction chunks with
  | nil =>
      intro acc hc
      by_cases ha : acc = []
      · simp [collectF, ha]
      · simp [collectF, ha]
  | cons chunk rest ih =>
      intro acc hc
      have hchunk : chunk ≠ [] := hc chunk (by simp)
      have hrest : ∀ c ∈ rest, c ≠ [] := fun c hm => hc c (by simp [hm])
      simp only [collectF, if_neg (by simpa using hchunk), List.flatten_cons]
      cases nbytes with
      | some n =>
          dsimp only
          by_cases hn : n ≠ 0
          · rw [if_pos hn]
            by_cases hl : n ≤ (acc ++ chunk).length
            · rw [if_pos hl, List.flatten_cons, ih _ hrest, ← List.append_assoc,
                List.take_append_drop, List.append_assoc]
            · rw [if_neg hl, ih _ hrest, List.append_assoc]
          · rw [if_neg hn]
            by_cases h4 : (acc ++ chunk).length % 4 = 0
            · rw [if_pos h4, List.flatten_cons, ih _ hrest, List.nil_append,
                List.append_assoc]
            · rw [if_neg h4, ih _ hrest, List.append_assoc]
      | none =>
          dsimp only
          by_cases h4 : (acc ++ chunk).length % 4 = 0
          · rw [if_pos h4, List.flatten_cons, ih _ hrest, List.nil_append,
              List.append_assoc]
          · rw [if_neg h4, ih _ hrest, List.append_assoc]

theorem mem_dropLast_cons {x : α} {l : List α} {b : α}
    (hb : b ∈ (x :: l).dropLast) : (b = x ∧ l ≠ []) ∨ b ∈ l.dropLast := by
  cases l with
  | nil => simp at hb
  | cons y l2 =>
      rw [List.dropLast_cons₂] at hb
      rcases List.mem_cons.mp hb with rfl | hb2
      · exact Or.inl ⟨rfl, by simp⟩
      · exact Or.inr hb2

theorem collectF_nbytes_len (n : Nat) (hn : n ≠ 0) :
    ∀ (chunks : List (List Nat)) (acc : List Nat),
      ∀ buf ∈ (collectF (some n) chunks acc).dropLast, buf.length = n := by
  intro chunks
  induction chunks with
  | nil =>
      intro acc buf hbuf
      by_cases ha : acc = [] <;> simp [collectF, ha] at hbuf
  | cons chunk rest ih =>
      intro acc buf hbuf
      by_cases hchunk : chunk = []
      · by_cases ha : acc = [] <;> simp [collectF, hchunk, ha] at hbuf
      · simp only [collectF, if_neg (by simpa using hchunk)] at hbuf
        rw [if_pos hn] at hbuf
        by_cases hl : n ≤ (acc ++ chunk).length
        · rw [if_pos hl] at hbuf
          rcases mem_dropLast_cons hbuf with ⟨rfl, _⟩ | hbuf2
          · rw [List.length_take]
            omega
          · exact ih _ buf hbuf2
        · rw [if_neg hl] at hbuf
          exact ih _ buf hbuf

theorem collectF_word_aligned :
    ∀ (chunks : List (List Nat)) (acc : List Nat),
      ∀ buf ∈ (collectF none chunks acc).dropLast, buf.length % 4 = 0 := by
  intro chunks
  induction chunks with
  | nil =>
      intro acc buf hbuf
      by_cases ha : acc = [] <;> simp [collectF, ha] at hbuf
  | cons chunk rest ih =>
      intro acc buf hbuf
      by_cases hchunk : chunk = []
      · by_cases ha : acc = [] <;> simp [collectF, hchunk, ha] at hbuf
      · simp only [collectF, if_neg (by simpa using hchunk)] at hbuf
        by_cases h4 : (acc ++ chunk).length % 4 = 0
        · rw [if_pos h4] at hbuf
          rcases mem_dropLast_cons hbuf with ⟨rfl, _⟩ | hbuf2
          · exact h4
          · exact ih _ buf hbuf2
        · rw [if_neg h4] at hbuf
          exact ih _ buf hbuf

theorem collectF_ne_nil (nbytes : Option Nat) :
    ∀ (chunks : List (List Nat)) (acc : List Nat),
      ∀ buf ∈ collectF nbytes chunks acc, buf ≠ [] := by
  intro chunks
  induction chunks with
  | nil =>
      intro acc buf hbuf
      by_cases ha : acc = []
      · simp [collectF, ha] at hbuf
      · simp only [collectF, if_pos ha, List.mem_singleton] at hbuf
        subst hbuf
        exact ha
  | cons chunk rest ih =>
      intro acc buf hbuf
      by_cases hchunk : chunk = []
      · by_cases ha : acc = []
        · simp [collectF, hchunk, ha] at hbuf
        · simp only [collectF, if_pos hchunk, if_pos ha, List.mem_singleton] at hbuf
          subst hbuf
          exact ha
      · have hX : acc ++ chunk ≠ [] := by
          simp [hchunk]
        simp only [collectF, if_neg (by simpa using hchunk)] at hbuf
        cases nbytes with
        | some n =>
            dsimp only at hbuf
            by_cases hn : n ≠ 0
            · rw [if_pos hn] at hbuf
              by_cases hl : n ≤ (acc ++ chunk).length
              · rw [if_pos hl] at hbuf
                rcases List.mem_cons.mp hbuf with rfl | hbuf2
                · have hlen : (List.take n (acc ++ chunk)).length = n := by
                    rw [List.length_take]
                    omega
                  intro hcontra
                  rw [hcontra] at hlen
                  simp at hlen
                  omega
                · exact ih _ buf hbuf2
              · rw [if_neg hl] at hbuf
                exact ih _ buf hbuf
            · rw [if_neg hn] at hbuf
              by_cases h4 : (acc ++ chunk).length % 4 = 0
              · rw [if_pos h4] at hbuf
                rcases List.mem_cons.mp hbuf with rfl | hbuf2
                · exact hX
                · exact ih _ buf hbuf2
              · rw [if_neg h4] at hbuf
                exact ih _ buf hbuf
        | none =>
            dsimp only at hbuf
            by_cases h4 : (acc ++ chunk).length % 4 = 0
            · rw [if_pos h4] at hbuf
              rcases List.mem_cons.mp hbuf with rfl | hbuf2
              · exact hX
              · exact ih _ buf hbuf2
            · rw [if_neg h4] at hbuf
              exact ih _ buf hbuf

/-- **C7**: for every capture session, in `nbytes` mode every buffer
yielded before stream end has exactly the requested byte count; in
word-aligned mode every yielded buffer except possibly the last has
length a multiple of 4; in both modes the concatenation of the yielded
buffers equals the byte stream received, with no empty buffer ever
yielded (the residual is yielded exactly once, when nonempty). -/
theorem collect_spec (n : Nat) (chunks : List (List Nat))
    (hn : n ≠ 0) (hc : ∀ c ∈ chunks, c ≠ []) :
    ((collect (some n) chunks).flatten = chunks.flatten) ∧
    ((collect none chunks).flatten = chunks.flatten) ∧
    (∀ buf ∈ (collect (some n) chunks).dropLast, buf.length = n) ∧
    (∀ buf ∈ (collect none chunks).dropLast, buf.length % 4 = 0) ∧
    (∀ buf ∈ collect (some n) chunks, buf ≠ []) ∧
    (∀ buf ∈ collect none chunks, buf ≠ []) :=
  ⟨collectF_join (some n) chunks [] hc,
   collectF_join none chunks [] hc,
   collectF_nbytes_len n hn chunks [],
   collectF_word_aligned chunks [],
   collectF_ne_nil (some n) chunks [],
   collectF_ne_nil none chunks []⟩

/-- Witness for C7 at a concrete five-byte stream read in one chunk with
`nbytes = 4`. -/
theorem collect_spec_witness :
    (collect (some 4) [[1, 2, 3, 4, 5]]).flatten = [[1, 2, 3, 4, 5]].flatten ∧
    collect (some 4) [[1, 2, 3, 4, 5]] = [[1, 2, 3, 4], [5]] :=
  ⟨(collect_spec 4 [[1, 2, 3, 4, 5]] (by decide) (by decide)).1, by decide⟩

/-! ## Capture-side completeness check (`handle_pcap` in seq.py) -/

/-- Observable events of the capture stage: a queue push of an indexed
block, the `Checked N values` report, a checker-stop sentinel push, the
final count assertion with its outcome. -/
inductive PcapEv where
  | push : Nat → List Nat → PcapEv
  | report : Nat → PcapEv
  | sentinel : PcapEv
  | assertCount : Bool → PcapEv
deriving DecidableEq

/-- The capture loop of `handle_pcap`: push each collected block with its
index onto the checker queue, accumulating `checked += len(data) // 4`. -/
def pcapLoop : List (List Nat) → Nat → Nat → List PcapEv × Nat
  | [], _, checked => ([], checked)
  | d :: ds, nblock, checked =>
      let r := pcapLoop ds (nblock + 1) (checked + d.length / 4)
      (PcapEv.push nblock d :: r.1, r.2)

/-- `handle_pcap` (seq.py): the event sequence of the capture stage —
the pushes, then the aggregate report, then one sentinel per checker
thread, then the `expected_lines == checked` assertion. -/
def handle_pcap (linesPerBlock nblocks repeats checkerThreads : Nat)
    (blocks : List (List Nat)) : List PcapEv :=
  (pcapLoop blocks 0 0).1 ++ [PcapEv.report (pcapLoop blocks 0 0).2]
    ++ List.replicate checkerThreads PcapEv.sentinel
    ++ [PcapEv.assertCount
          (decide (linesPerBlock * nblocks * repeats = (pcapLoop blocks 0 0).2))]

theorem pcapLoop_count :
    ∀ (blocks : List (List Nat)) (nblock checked : Nat),
      (pcapLoop blocks nblock checked).2
        = checked + (blocks.map fun d => d.length / 4).sum := by
  intro blocks
  induction blocks with
  | nil => intro nblock checked; simp [pcapLoop]
  | cons d ds ih =>
      intro nblock checked
      simp only [pcapLoop, ih, List.map_cons, List.sum_cons]
      omega

/-- pgen.py `handle_pcap` capture loop: check each word of each buffer
against the running counter (`(i+j) % lines_per_block` when repeating,
else `(i+j) & 0xffffffff`), aborting on the first mismatching assert,
and advance the counter by the word count; `none` means an aborted
run, `some i` the final counter. -/
def pgenLoop (repeats linesPerBlock : Nat) :
    List (List Nat) → Nat → Option Nat
  | [], i => some i
  | adata :: rest, i =>
      if (List.range adata.length).all (fun j =>
          adata.getD j 0 == (if 1 < repeats then (i + j) % linesPerBlock
                             else (i + j) % 4294967296)) then
        pgenLoop repeats linesPerBlock rest (i + adata.length)
      else none

/-- pgen.py `handle_pcap`: the counter starts at `args.start_number`;
after the loop the reported counter and the outcome of the final
`i == lines_per_block * nblocks * repeats` assert (`none` when a
per-value assert already aborted the stage). -/
def pgen_handle_pcap (startNumber repeats linesPerBlock nblocks : Nat)
    (buffers : List (List Nat)) : Option (Nat × Bool) :=
  (pgenLoop repeats linesPerBlock buffers startNumber).map fun i =>
    (i, decide (i = linesPerBlock * nblocks * repeats))

theorem pgenLoop_count (repeats linesPerBlock : Nat) :
    ∀ (buffers : List (List Nat)) (i j : Nat),
      pgenLoop repeats linesPerBlock buffers i = some j →
      j = i + (buffers.map List.length).sum := by
  intro buffers
  induction buffers with
  | nil =>
      intro i j h
      injection h with h2
      simp [← h2]
  | cons adata rest ih =>
      intro i j h
      rw [pgenLoop] at h
      by_cases hck : ((List.range adata.length).all fun j =>
          adata.getD j 0 == (if 1 < repeats then (i + j) % linesPerBlock
                             else (i + j) % 4294967296)) = true
      · rw [if_pos hck] at h
        have := ih (i + adata.length) j h
        simp only [List.map_cons, List.sum_cons]
        omega
      · rw [if_neg hck] at h
        cases h

/-- **C8 counterexample**: pgen.py's capture stage with
`--start-number 1`, `lines_per_block = 2`, `nblocks = repeats = 1`:
only one value is consumed (a shortfall, since
`lines_per_block * nblocks * repeats = 2`), every per-value assert
passes, and the final completeness assert also passes. -/
theorem pgen_pcap_shortfall_counterexample :
    pgen_handle_pcap 1 1 2 1 [[1]] = some (2, true) ∧
    ([[1]].map List.length).sum ≠ 2 * 1 * 1 := by decide

/-- **C8 (amended)**: seq.py's capture stage asserts
`checked == lines_per_block * nblocks * repeats` exactly — both a
shortfall and a surplus fail — and reports the aggregate checked count
before the assertion; pgen.py's capture stage instead asserts
`start_number + consumed == lines_per_block * nblocks * repeats` (its
counter starts at `start_number`), so with the default
`start_number = 0` a shortfall or surplus fails, but a nonzero
`start_number` accepts a run short by exactly `start_number` values. -/
theorem pcap_completeness (L B R T s : Nat) (blocks buffers : List (List Nat)) :
    ((handle_pcap L B R T blocks
      = (pcapLoop blocks 0 0).1
          ++ [PcapEv.report ((blocks.map fun d => d.length / 4).sum)]
          ++ List.replicate T PcapEv.sentinel
          ++ [PcapEv.assertCount
                (decide (L * B * R = (blocks.map fun d => d.length / 4).sum))]) ∧
    ((decide (L * B * R = (blocks.map fun d => d.length / 4).sum)) = true
      ↔ (blocks.map fun d => d.length / 4).sum = L * B * R) ∧
    ((handle_pcap L B R T blocks).getLast?
      = some (PcapEv.assertCount
          (decide (L * B * R = (blocks.map fun d => d.length / 4).sum)))) ∧
    PcapEv.report ((blocks.map fun d => d.length / 4).sum)
      ∈ (handle_pcap L B R T blocks).dropLast) ∧
    (∀ (j : Nat) (pass : Bool),
      pgen_handle_pcap s R L B buffers = some (j, pass) →
        j = s + (buffers.map List.length).sum ∧
        (pass = true ↔ s + (buffers.map List.length).sum = L * B * R)) := by
  constructor
  · have hcount : (pcapLoop blocks 0 0).2 = (blocks.map fun d => d.length / 4).sum := by
      rw [pcapLoop_count]
      omega
    have hshape : handle_pcap L B R T blocks
        = ((pcapLoop blocks 0 0).1
            ++ [PcapEv.report ((blocks.map fun d => d.length / 4).sum)]
            ++ List.replicate T PcapEv.sentinel)
            ++ [PcapEv.assertCount
                  (decide (L * B * R = (blocks.map fun d => d.length / 4).sum))] := by
      simp [handle_pcap, hcount, List.append_assoc]
    refine ⟨by rw [hshape], ?_, ?_, ?_⟩
    · constructor
      · intro h
        exact (of_decide_eq_true h).symm
      · intro h
        exact decide_eq_true h.symm
    · rw [hshape]
      exact List.getLast?_concat _
    · rw [hshape, dropLast_append_singleton]
      simp
  · intro j pass h
    rw [pgen_handle_pcap] at h
    cases hloop : pgenLoop R L buffers s with
    | none => rw [hloop] at h; cases h
    | some i =>
        rw [hloop] at h
        rw [Option.map_some'] at h
        injection h with h2
        injection h2 with hj hpass
        have hsum := pgenLoop_count R L buffers s i hloop
        subst hj
        constructor
        · exact hsum
        · rw [← hpass]
          constructor
          · intro hdec
            have := of_decide_eq_true hdec
            omega
          · intro hs
            exact decide_eq_true (by omega)

/-- Witness for C8 (amended), at the pgen shortfall input: the final
counter is `start_number` plus the consumed count, and the assert passes
iff their sum matches the expected total. -/
theorem pcap_completeness_witness :
    2 = 1 + ([[1]].map List.length).sum ∧
    ((true : Bool) = true ↔ 1 + ([[1]].map List.length).sum = 2 * 1 * 1) :=
  (pcap_completeness 2 1 1 1 1 [[0, 0, 0, 0, 0, 0, 0, 0]] [[1]]).2 2 true (by decide)

/-! ## Checker pipeline ordering (`checker` workers in seq.py) -/

/-- Bit extraction of the checker: for each of the six sequencer output
bits, test bit `offsets[bit_i]` of the captured word. -/
def extractBits (offsets : List Nat) (word : Nat) : Nat :=
  (List.range 6).foldl
    (fun val biti =>
      if (1 <<< offsets.getD biti 0) &&& word ≠ 0 then val ||| (1 <<< biti) else val) 0

/-- The per-block assertions of the checker: equal lengths, then each
extracted value equals the expected one. -/
def checkBlock (offsets : List Nat) (adata expected : List Nat) : Bool :=
  adata.length == expected.length
    && (adata.zip expected).all fun p => extractBits offsets p.1 == p.2

/-- Program counter of one checker worker. -/
inductive WPC where
  | idle
  | locked
  | gotItem : Nat → List Nat → WPC
  | finished
deriving DecidableEq

/-- Global state of the checker stage: items consumed from the checker
queue and the expect queue, the lock holder, each worker's program
counter, and the ordered log of comparisons performed. -/
structure CheckSt where
  cqPos : Nat
  eqPos : Nat
  lockHeld : Option Nat
  pcs : Nat → WPC
  checks : List ((Nat × List Nat) × List Nat)

/-- The checker-queue items pushed by `handle_pcap`, indexed from `i`. -/
def idxQueue : Nat → List (List Nat) → List (Option (Nat × List Nat))
  | _, [] => []
  | i, d :: ds => some (i, d) :: idxQueue (i + 1) ds

/-- Checker queue contents: the blocks in capture order, then one
sentinel (`(None, None)`) per worker. -/
def checkerQueue (blocks : List (List Nat)) (w : Nat) :
    List (Option (Nat × List Nat)) :=
  idxQueue 0 blocks ++ List.replicate w none

theorem idxQueue_length :
    ∀ (blocks : List (List Nat)) (i : Nat), (idxQueue i blocks).length = blocks.length := by
  intro blocks
  induction blocks with
  | nil => intro i; rfl
  | cons d ds ih => intro i; simp [idxQueue, ih]

theorem idxQueue_getElem? :
    ∀ (blocks : List (List Nat)) (i j : Nat),
      (idxQueue i blocks)[j]? = (blocks[j]?).map fun d => some (i + j, d) := by
  intro blocks
  induction blocks with
  | nil => intro i j; simp [idxQueue]
  | cons d ds ih =>
      intro i j
      cases j with
      | zero => simp [idxQueue]
      | succ j2 =>
          simp only [idxQueue, List.getElem?_cons_succ, ih (i + 1) j2]
          cases hd : ds[j2]? with
          | none => simp
          | some a =>
              have heq : i + 1 + j2 = i + (j2 + 1) := by omega
              simp [heq]

/-- A non-sentinel item sits at position `p` of the checker queue iff
`p` indexes a block, and the item is block `p` itself. -/
theorem checkerQueue_block {blocks : List (List Nat)} {w p : Nat}
    {i : Nat} {d : List Nat}
    (h : (checkerQueue blocks w)[p]? = some (some (i, d))) :
    p < blocks.length ∧ i = p ∧ blocks[p]? = some d := by
  by_cases hp : p < blocks.length
  · rw [checkerQueue, List.getElem?_append_left (by simpa [idxQueue_length] using hp),
      idxQueue_getElem?] at h
    cases hd : blocks[p]? with
    | none => rw [hd] at h; simp at h
    | some b =>
        rw [hd] at h
        simp at h
        obtain ⟨h4, h5⟩ := h
        refine ⟨hp, by omega, ?_⟩
        rw [h5]
  · rw [checkerQueue, List.getElem?_append_right (by simpa [idxQueue_length] using hp)] at h
    rcases List.getElem?_eq_some_iff.mp h with ⟨hlt, hval⟩
    rw [List.getElem_replicate] at hval
    cases hval

/-- A sentinel at position `p` means all blocks sit before `p`. -/
theorem checkerQueue_sentinel {blocks : List (List Nat)} {w p : Nat}
    (h : (checkerQueue blocks w)[p]? = some none) :
    blocks.length ≤ p := by
  by_contra hp
  push_neg at hp
  rw [checkerQueue, List.getElem?_append_left (by simpa [idxQueue_length] using hp),
    idxQueue_getElem?] at h
  cases hd : blocks[p]? with
  | none =>
      rw [hd] at h
      simp at h
  | some b =>
      rw [hd] at h
      simp at h

/-- One scheduler-chosen step of a checker worker (seq.py `checker`):
acquire the lock; under the lock pop the checker queue (a sentinel ends
the worker, a block is held); pop the expect queue, record the
comparison and release the lock. -/
inductive CStep (CQ : List (Option (Nat × List Nat))) (EQ : List (List Nat))
    (W : Nat) : CheckSt → CheckSt → Prop where
  | acquire (w : Nat) (s : CheckSt) :
      w < W → s.pcs w = WPC.idle → s.lockHeld = none →
      CStep CQ EQ W s
        { s with lockHeld := some w, pcs := Function.update s.pcs w WPC.locked }
  | popSentinel (w : Nat) (s : CheckSt) :
      w < W → s.pcs w = WPC.locked → s.lockHeld = some w →
      CQ[s.cqPos]? = some none →
      CStep CQ EQ W s
        { s with cqPos := s.cqPos + 1, lockHeld := none,
                 pcs := Function.update s.pcs w WPC.finished }
  | popBlock (w : Nat) (s : CheckSt) (i : Nat) (d : List Nat) :
      w < W → s.pcs w = WPC.locked → s.lockHeld = some w →
      CQ[s.cqPos]? = some (some (i, d)) →
      CStep CQ EQ W s
        { s with cqPos := s.cqPos + 1,
                 pcs := Function.update s.pcs w (WPC.gotItem i d) }
  | popExpect (w : Nat) (s : CheckSt) (i : Nat) (d e : List Nat) :
      w < W → s.pcs w = WPC.gotItem i d → s.lockHeld = some w →
      EQ[s.eqPos]? = some e →
      CStep CQ EQ W s
        { s with eqPos := s.eqPos + 1, lockHeld := none,
                 pcs := Function.update s.pcs w WPC.idle,
                 checks := s.checks ++ [((i, d), e)] }

/-- All workers idle, nothing consumed, no checks yet. -/
def CInit : CheckSt := ⟨0, 0, none, fun _ => WPC.idle, []⟩

/-- Reachability under any interleaving of worker steps. -/
def CReach (blocks EQ : List (List Nat)) (W : Nat) (s : CheckSt) : Prop :=
  Relation.ReflTransGen (CStep (checkerQueue blocks W) EQ W) CInit s

/-- The inductive invariant of the checker stage. -/
def CInv (blocks EQ : List (List Nat)) (s : CheckSt) : Prop :=
  (∀ w i d, s.pcs w = WPC.gotItem i d →
    s.lockHeld = some w ∧ i = s.eqPos ∧ blocks[i]? = some d ∧
      i < blocks.length ∧ s.cqPos = i + 1) ∧
  (∀ w, s.pcs w = WPC.locked → s.lockHeld = some w) ∧
  ((∀ w i d, s.pcs w ≠ WPC.gotItem i d) → s.eqPos = min s.cqPos blocks.length) ∧
  (s.checks = (List.range s.eqPos).map fun k => ((k, blocks.getD k []), EQ.getD k [])) ∧
  s.eqPos ≤ blocks.length ∧
  ((∃ w, s.pcs w = WPC.finished) → s.eqPos = blocks.length)

theorem CInv_init (blocks EQ : List (List Nat)) : CInv blocks EQ CInit := by
  refine ⟨?_, ?_, ?_, rfl, Nat.zero_le _, ?_⟩
  · intro w i d h
    cases h
  · intro w h
    cases h
  · intro h
    simp [CInit]
  · intro h
    rcases h with ⟨w, hw⟩
    cases hw

theorem CInv_step (blocks EQ : List (List Nat)) (W : Nat) {s s2 : CheckSt}
    (hstep : CStep (checkerQueue blocks W) EQ W s s2)
    (hinv : CInv blocks EQ s) : CInv blocks EQ s2 := by
  obtain ⟨I1, I2, I3, I4, I5, I6⟩ := hinv
  cases hstep with
  | acquire w s hw hpc hlock =>
      have hnogot : ∀ w2 i d, s.pcs w2 ≠ WPC.gotItem i d := by
        intro w2 i d hcontra
        have hl := (I1 w2 i d hcontra).1
        rw [hlock] at hl
        cases hl
      refine ⟨?_, ?_, ?_, I4, I5, ?_⟩
      · intro w2 i d h
        dsimp only at h
        by_cases hww : w2 = w
        · subst hww
          rw [Function.update_same] at h
          cases h
        · rw [Function.update_noteq hww] at h
          exact absurd h (hnogot w2 i d)
      · intro w2 h
        dsimp only at h ⊢
        by_cases hww : w2 = w
        · subst hww; rfl
        · rw [Function.update_noteq hww] at h
          have hl := I2 w2 h
          rw [hlock] at hl
          cases hl
      · intro _
        dsimp only
        exact I3 hnogot
      · intro hfin
        dsimp only at hfin
        apply I6
        rcases hfin with ⟨w2, hw2⟩
        by_cases hww : w2 = w
        · subst hww
          rw [Function.update_same] at hw2
          cases hw2
        · rw [Function.update_noteq hww] at hw2
          exact ⟨w2, hw2⟩
  | popSentinel w s hw hpc hlock hcq =>
      have hsen := checkerQueue_sentinel hcq
      have hnogot : ∀ w2 i d, s.pcs w2 ≠ WPC.gotItem i d := by
        intro w2 i d hcontra
        have hl := (I1 w2 i d hcontra).1
        rw [hlock] at hl
        injection hl with hl2
        subst hl2
        rw [hpc] at hcontra
        cases hcontra
      have heqB : s.eqPos = blocks.length := by
        have := I3 hnogot
        omega
      refine ⟨?_, ?_, ?_, I4, I5, ?_⟩
      · intro w2 i d h
        dsimp only at h
        by_cases hww : w2 = w
        · subst hww
          rw [Function.update_same] at h
          cases h
        · rw [Function.update_noteq hww] at h
          exact absurd h (hnogot w2 i d)
      · intro w2 h
        dsimp only at h ⊢
        by_cases hww : w2 = w
        · subst hww
          rw [Function.update_same] at h
          cases h
        · rw [Function.update_noteq hww] at h
          have hl := I2 w2 h
          rw [hlock] at hl
          injection hl with hl2
          exact absurd hl2.symm hww
      · intro _
        dsimp only
        omega
      · intro _
        dsimp only
        exact heqB
  | popBlock w s i d hw hpc hlock hcq =>
      obtain ⟨hlt, hip, hbp⟩ := checkerQueue_block hcq
      have hnogot : ∀ w2 i2 d2, s.pcs w2 ≠ WPC.gotItem i2 d2 := by
        intro w2 i2 d2 hcontra
        have hl := (I1 w2 i2 d2 hcontra).1
        rw [hlock] at hl
        injection hl with hl2
        subst hl2
        rw [hpc] at hcontra
        cases hcontra
      have heqc : s.eqPos = s.cqPos := by
        have := I3 hnogot
        omega
      refine ⟨?_, ?_, ?_, I4, I5, ?_⟩
      · intro w2 i2 d2 h
        dsimp only at h ⊢
        by_cases hww : w2 = w
        · subst hww
          rw [Function.update_same] at h
          injection h with h1 h2
          subst h1
          subst h2
          exact ⟨hlock, by omega, by rw [hip]; exact hbp, by omega, by omega⟩
        · rw [Function.update_noteq hww] at h
          exact absurd h (hnogot w2 i2 d2)
      · intro w2 h
        dsimp only at h ⊢
        by_cases hww : w2 = w
        · subst hww
          rw [Function.update_same] at h
          cases h
        · rw [Function.update_noteq hww] at h
          exact I2 w2 h
      · intro hno
        dsimp only at hno
        exact absurd (Function.update_same w (WPC.gotItem i d) s.pcs) (hno w i d)
      · intro hfin
        dsimp only at hfin
        rcases hfin with ⟨w2, hw2⟩
        by_cases hww : w2 = w
        · subst hww
          rw [Function.update_same] at hw2
          cases hw2
        · rw [Function.update_noteq hww] at hw2
          have := I6 ⟨w2, hw2⟩
          omega
  | popExpect w s i d e hw hpc hlock hEQ =>
      obtain ⟨hl, hieq, hbp, hilt, hcq⟩ := I1 w i d hpc
      have hnogot2 : ∀ w2, w2 ≠ w → ∀ i2 d2, s.pcs w2 ≠ WPC.gotItem i2 d2 := by
        intro w2 hww i2 d2 hcontra
        have hl2 := (I1 w2 i2 d2 hcontra).1
        rw [hlock] at hl2
        injection hl2 with hl3
        exact hww hl3.symm
      have hnolock : ∀ w2, w2 ≠ w → s.pcs w2 ≠ WPC.locked := by
        intro w2 hww hcontra
        have hl2 := I2 w2 hcontra
        rw [hlock] at hl2
        injection hl2 with hl3
        exact hww hl3.symm
      refine ⟨?_, ?_, ?_, ?_, by dsimp only; omega, ?_⟩
      · intro w2 i2 d2 h
        dsimp only at h
        by_cases hww : w2 = w
        · subst hww
          rw [Function.update_same] at h
          cases h
        · rw [Function.update_noteq hww] at h
          exact absurd h (hnogot2 w2 hww i2 d2)
      · intro w2 h
        dsimp only at h ⊢
        by_cases hww : w2 = w
        · subst hww
          rw [Function.update_same] at h
          cases h
        · rw [Function.update_noteq hww] at h
          exact absurd h (hnolock w2 hww)
      · intro _
        dsimp only
        omega
      · dsimp only
        rw [I4, List.range_succ, List.map_append]
        congr 1
        have hd2 : blocks.getD s.eqPos [] = d := by
          rw [List.getD_eq_getElem?_getD, ← hieq, hbp]
          rfl
        have he2 : EQ.getD s.eqPos [] = e := by
          rw [List.getD_eq_getElem?_getD, hEQ]
          rfl
        simp only [List.map_cons, List.map_nil, List.cons.injEq, Prod.mk.injEq, and_true]
        exact ⟨⟨hieq, hd2.symm⟩, he2.symm⟩
      · intro hfin
        dsimp only at hfin
        rcases hfin with ⟨w2, hw2⟩
        by_cases hww : w2 = w
        · subst hww
          rw [Function.update_same] at hw2
          cases hw2
        · rw [Function.update_noteq hww] at hw2
          have := I6 ⟨w2, hw2⟩
          omega

theorem CInv_reach (blocks EQ : List (List Nat)) (W : Nat) {s : CheckSt}
    (h : CReach blocks EQ W s) : CInv blocks EQ s := by
  induction h with
  | refl => exact CInv_init blocks EQ
  | tail hsteps hstep ih => exact CInv_step blocks EQ W hstep ih

/-- **C9**: under every interleaving of the checker workers, the ordered
log of comparisons pairs the `k`-th captured block (with its capture
index `k`) with the `k`-th expected-value list, for every `k` below the
number popped so far; once any worker has seen a sentinel, all blocks
have been compared; and the per-block check fails precisely on a length
mismatch or a mismatched value at some position. -/
theorem checker_ordering (blocks EQ : List (List Nat)) (offsets : List Nat)
    (W : Nat) (s : CheckSt) (hreach : CReach blocks EQ W s) :
    (s.checks = (List.range s.eqPos).map fun k =>
        ((k, blocks.getD k []), EQ.getD k [])) ∧
    s.eqPos ≤ blocks.length ∧
    ((∃ w, s.pcs w = WPC.finished) → s.eqPos = blocks.length) ∧
    (∀ adata expected : List Nat,
      checkBlock offsets adata expected = false ↔
        adata.length ≠ expected.length ∨
          ∃ p ∈ adata.zip expected, extractBits offsets p.1 ≠ p.2) := by
  obtain ⟨_, _, _, I4, I5, I6⟩ := CInv_reach blocks EQ W hreach
  refine ⟨I4, I5, I6, ?_⟩
  intro adata expected
  have hiff : checkBlock offsets adata expected = true ↔
      adata.length = expected.length ∧
        ∀ p ∈ adata.zip expected, extractBits offsets p.1 = p.2 := by
    simp [checkBlock, List.all_eq_true]
  constructor
  · intro hfalse
    by_contra hcontra
    push_neg at hcontra
    have hpass : checkBlock offsets adata expected = true := by
      rw [hiff]
      exact ⟨hcontra.1, fun p hp => by
        by_contra hne
        exact absurd (hcontra.2 p hp) (by simpa using hne)⟩
    rw [hpass] at hfalse
    cases hfalse
  · intro hcontra
    by_contra hf
    have hpass : checkBlock offsets adata expected = true := by
      cases hb : checkBlock offsets adata expected
      · exact absurd hb hf
      · rfl
    rw [hiff] at hpass
    rcases hcontra with hlen | ⟨p, hp, hne⟩
    · exact hlen hpass.1
    · exact hne (hpass.2 p hp)

/-- Witness for C9: one worker, one block, one expected list; after the
execution acquire → pop block → pop expected, the log holds exactly the
index-correlated comparison. -/
theorem checker_ordering_witness :
    ([((0, [1]), [2])] : List ((Nat × List Nat) × List Nat))
      = (List.range 1).map (fun k =>
          ((k, ([[1]] : List (List Nat)).getD k []),
            ([[2]] : List (List Nat)).getD k [])) := by
  have h1 : CStep (checkerQueue [[1]] 1) [[2]] 1 CInit
      { CInit with lockHeld := some 0,
                   pcs := Function.update CInit.pcs 0 WPC.locked } :=
    CStep.acquire 0 CInit (by omega) rfl rfl
  have h2 : CStep (checkerQueue [[1]] 1) [[2]] 1
      { CInit with lockHeld := some 0,
                   pcs := Function.update CInit.pcs 0 WPC.locked }
      { CInit with cqPos := 1, lockHeld := some 0,
                   pcs := Function.update
                     (Function.update CInit.pcs 0 WPC.locked) 0
                     (WPC.gotItem 0 [1]) } :=
    CStep.popBlock 0 _ 0 [1] (by omega) rfl rfl rfl
  have h3 : CStep (checkerQueue [[1]] 1) [[2]] 1
      { CInit with cqPos := 1, lockHeld := some 0,
                   pcs := Function.update
                     (Function.update CInit.pcs 0 WPC.locked) 0
                     (WPC.gotItem 0 [1]) }
      { CInit with cqPos := 1, eqPos := 1, lockHeld := none,
                   pcs := Function.update
                     (Function.update
                       (Function.update CInit.pcs 0 WPC.locked) 0
                       (WPC.gotItem 0 [1])) 0 WPC.idle,
                   checks := [((0, [1]), [2])] } :=
    CStep.popExpect 0 _ 0 [1] [2] (by omega) rfl rfl rfl
  have hreach : CReach [[1]] [[2]] 1
      { CInit with cqPos := 1, eqPos := 1, lockHeld := none,
                   pcs := Function.update
                     (Function.update
                       (Function.update CInit.pcs 0 WPC.locked) 0
                       (WPC.gotItem 0 [1])) 0 WPC.idle,
                   checks := [((0, [1]), [2])] } :=
    Relation.ReflTransGen.tail
      (Relation.ReflTransGen.tail (Relation.ReflTransGen.single h1) h2) h3
  exact (checker_ordering [[1]] [[2]] [0, 1, 2, 3, 4, 5] 1 _ hreach).1

/-! ## First matching instance (`PandaClient.get_first_instance_name`) -/

/-- Python string `<=` on code-point lists (lexicographic). -/
def lexLe : List Nat → List Nat → Bool
  | [], _ => true
  | _ :: _, [] => false
  | a :: as, b :: bs => if a < b then true else if b < a then false else lexLe as bs

/-- `lexLe` as a relation, for sorting. -/
def LexLeP (x y : List Nat) : Prop := lexLe x y = true

instance : DecidableRel LexLeP := fun x y =>
  inferInstanceAs (Decidable (lexLe x y = true))

theorem lexLe_refl : ∀ a : List Nat, lexLe a a = true
  | [] => rfl
  | a :: as => by simp [lexLe, Nat.lt_irrefl, lexLe_refl as]

theorem lexLe_total : ∀ a b : List Nat, lexLe a b = true ∨ lexLe b a = true
  | [], _ => Or.inl rfl
  | _ :: _, [] => Or.inr rfl
  | a :: as, b :: bs => by
      rcases Nat.lt_trichotomy a b with h | h | h
      · left
        simp [lexLe, h]
      · subst h
        rcases lexLe_total as bs with h2 | h2
        · left
          simp [lexLe, Nat.lt_irrefl, h2]
        · right
          simp [lexLe, Nat.lt_irrefl, h2]
      · right
        simp [lexLe, h]

theorem lexLe_trans :
    ∀ a b c : List Nat, lexLe a b = true → lexLe b c = true → lexLe a c = true
  | [], _, _, _, _ => rfl
  | a :: as, [], c, hab, _ => by simp [lexLe] at hab
  | a :: as, b :: bs, [], _, hbc => by simp [lexLe] at hbc
  | a :: as, b :: bs, c :: cs, hab, hbc => by
      simp only [lexLe] at hab hbc ⊢
      by_cases h1 : a < b
      · by_cases h2 : b < c
        · rw [if_pos (by omega)]
        · rw [if_neg h2] at hbc
          by_cases h3 : c < b
          · rw [if_pos h3] at hbc
            cases hbc
          · rw [if_pos (by omega)]
      · rw [if_neg h1] at hab
        by_cases h1b : b < a
        · rw [if_pos h1b] at hab
          cases hab
        · rw [if_neg h1b] at hab
          have hba : a = b := by omega
          subst hba
          by_cases h2 : a < c
          · rw [if_pos h2]
          · rw [if_neg h2] at hbc ⊢
            by_cases h3 : c < a
            · rw [if_pos h3] at hbc
              cases hbc
            · rw [if_neg h3] at hbc ⊢
              exact lexLe_trans as bs cs hab hbc

instance : IsTotal (List Nat) LexLeP := ⟨fun a b => lexLe_total a b⟩

instance : IsTrans (List Nat) LexLeP := ⟨fun a b c => lexLe_trans a b c⟩

/-- `PandaClient.get_first_instance_name`: iterate the sorted instance
names and return the first one starting with the block name, or `''`. -/
def get_first_instance_name (instances : List (List Nat))
    (blockName : List Nat) : List Nat :=
  match (List.insertionSort LexLeP instances).find?
      (fun i => blockName.isPrefixOf i) with
  | some inst => inst
  | none => []

theorem sorted_find?_min {q : List Nat → Bool} :
    ∀ l : List (List Nat), l.Sorted LexLeP → ∀ res, l.find? q = some res →
      ∀ i ∈ l, q i = true → lexLe res i = true := by
  intro l
  induction l with
  | nil => intro _ res h; simp at h
  | cons x xs ih =>
      intro hsort res hfind i hi hq
      have hsplit := List.sorted_cons.mp hsort
      cases hqx : q x with
      | true =>
          rw [List.find?_cons_of_pos _ hqx] at hfind
          injection hfind with hres
          subst hres
          rcases List.mem_cons.mp hi with rfl | hi2
          · exact lexLe_refl _
          · exact hsplit.1 i hi2
      | false =>
          rw [List.find?_cons_of_neg _ (by simp [hqx])] at hfind
          rcases List.mem_cons.mp hi with rfl | hi2
          · rw [hq] at hqx
            cases hqx
          · exact ih hsplit.2 res hfind i hi2 hq

/-- **C10**: `get_first_instance_name` returns the lexicographically
smallest cached instance name starting with the given block-name prefix,
and the empty string when no cached instance matches. -/
theorem get_first_instance_name_spec (instances : List (List Nat))
    (p : List Nat) :
    ((∀ i ∈ instances, p.isPrefixOf i = false) →
        get_first_instance_name instances p = []) ∧
    (∀ i ∈ instances, p.isPrefixOf i = true →
        p.isPrefixOf (get_first_instance_name instances p) = true ∧
        get_first_instance_name instances p ∈ instances ∧
        lexLe (get_first_instance_name instances p) i = true) := by
  have hperm := List.perm_insertionSort LexLeP instances
  have hsort := List.sorted_insertionSort LexLeP instances
  cases hfind : (List.insertionSort LexLeP instances).find?
      (fun i => p.isPrefixOf i) with
  | none =>
      have hnone := List.find?_eq_none.mp hfind
      constructor
      · intro _
        simp [get_first_instance_name, hfind]
      · intro i hi hq
        exact absurd hq (by simpa using hnone i (hperm.mem_iff.mpr hi))
  | some res =>
      have hres_pred : p.isPrefixOf res = true := by
        have := List.find?_some hfind
        simpa using this
      have hres_mem : res ∈ List.insertionSort LexLeP instances :=
        List.mem_of_find?_eq_some hfind
      have hval : get_first_instance_name instances p = res := by
        simp [get_first_instance_name, hfind]
      constructor
      · intro hall
        have := hall res (hperm.mem_iff.mp hres_mem)
        rw [hres_pred] at this
        cases this
      · intro i hi hq
        refine ⟨by rw [hval]; exact hres_pred,
                by rw [hval]; exact hperm.mem_iff.mp hres_mem, ?_⟩
        rw [hval]
        exact sorted_find?_min _ hsort res hfind i (hperm.mem_iff.mpr hi) hq

/-- Witness for C10: among `B`, `AB`, `A` with prefix `A`, the result is
prefixed by `A`, cached, and lexicographically minimal among matches. -/
theorem get_first_instance_name_spec_witness :
    ([65] : List Nat).isPrefixOf
        (get_first_instance_name [[66], [65, 66], [65]] [65]) = true ∧
    get_first_instance_name [[66], [65, 66], [65]] [65]
      ∈ [[66], [65, 66], [65]] ∧
    lexLe (get_first_instance_name [[66], [65, 66], [65]] [65]) [65, 66] = true :=
  (get_first_instance_name_spec [[66], [65, 66], [65]] [65]).2 [65, 66]
    (by decide) (by decide)
